import Mathlib

/-!
# Verification of the kite quadtree / covariance core

A shallow embedding, in Lean 4, of the algorithmic core of the `kite`
repository (files `src/quadtree.py` and `src/covariance.py`), together
with theorems settling the specification claims about it.

## Modelling conventions

* Python floats are modelled by `ℚ`.  All the claims under study are
  about comparisons, counting and linear arithmetic of such values, never
  about rounding behaviour.
* The raster (`Scene.displacement`) enters the quadtree algorithms only
  through (a) the NaN mask of each tile window and (b) the pluggable
  correction metric `_corr_func` (one of four `nanstd`-based statistics,
  selected by `QuadtreeConfig.correction`).  Accordingly a scene/tree
  context `Ctx` carries the raster shape, the NaN mask `isNaN`, the
  correction metric `corr` (a function of a tile's `llr, llc, length`,
  exactly how `_corr_func` consumes a `QuadNode`) and the derived bound
  `epsilon_min` (`Quadtree.epsilon_min = 0.2 * nanstd(displacement)` in
  the source, an irrational real in general, hence a parameter here).
* `QuadNode.children` is `None` or a Python list; it is modelled by
  `Option (List QTree)`.
* Recursion over the tree uses mutual structural recursion (tree/list),
  and `createTree`'s recursion over halving side lengths uses a fuel
  argument (`fuel = length` always suffices, see `buildTreeFuel_congr`),
  so that every definition is executable and kernel-reducible.
-/

namespace Kite

/-- Scene / tree context: raster shape, NaN mask, correction metric and
`epsilon_min`.  `isNaN r c` is `Scene.displacement_mask[r, c]` (out of
range values are never consulted); `corr llr llc len` is
`Quadtree._corr_func` applied to the node `(llr, llc, len)`;
`epsMin` is `Quadtree.epsilon_min`. -/
structure Ctx where
  rows : Nat
  cols : Nat
  isNaN : Nat → Nat → Bool
  corr : Nat → Nat → Nat → ℚ
  epsMin : ℚ

/-- A tile, identified (as in `QuadNode.__init__`) by the lower-left
corner `(llr, llc)` in the displacement matrix and the side length. -/
structure Tile where
  llr : Nat
  llc : Nat
  len : Nat
deriving DecidableEq, Repr

/-- `QuadNode.id`, the string `'node_%d-%d_%d' % (llr, llc, length)`. -/
def tileId (t : Tile) : String :=
  "node_" ++ toString t.llr ++ "-" ++ toString t.llc ++ "_" ++ toString t.len

/-- Number of raster cells satisfying a predicate.  The raster indices
range over `[0, rows) × [0, cols)`. -/
def cellCount (ctx : Ctx) (p : Nat → Nat → Bool) : Nat :=
  ∑ r ∈ Finset.range ctx.rows, ∑ c ∈ Finset.range ctx.cols, if p r c then 1 else 0

/-- Membership of the raster cell `(r, c)` in the (unclipped) index
rectangle of the tile `(llr, llc, len)`; the numpy slice
`displacement[llr:llr+len, llc:llc+len]` keeps exactly the raster cells
satisfying this. -/
def inTile (llr llc len r c : Nat) : Bool :=
  decide (llr ≤ r ∧ r < llr + len ∧ llc ≤ c ∧ c < llc + len)

/-- `QuadNode.displacement.size`: number of raster samples in the tile
window (the slice clips at the raster edges). -/
def tileSize (ctx : Ctx) (llr llc len : Nat) : Nat :=
  cellCount ctx fun r c => inTile llr llc len r c

/-- `num.sum(QuadNode.displacement_mask)`: number of NaN samples in the
tile window. -/
def tileNanCount (ctx : Ctx) (llr llc len : Nat) : Nat :=
  cellCount ctx fun r c => inTile llr llc len r c && ctx.isNaN r c

/-- `QuadNode.nan_fraction = sum(displacement_mask) / displacement.size`
(float division in the source; division by zero cannot occur on nodes of
a built tree, which all contain at least one raster sample). -/
def nanFraction (ctx : Ctx) (t : Tile) : ℚ :=
  (tileNanCount ctx t.llr t.llc t.len : ℚ) / (tileSize ctx t.llr t.llc t.len : ℚ)

/-- The quadtree node structure: `QuadNode` with its `llr`, `llc`,
`length` and `children` (`None` or a list of nodes). -/
inductive QTree where
  | mk (llr llc len : Nat) (children : Option (List QTree))

def QTree.llr : QTree → Nat
  | .mk a _ _ _ => a

def QTree.llc : QTree → Nat
  | .mk _ a _ _ => a

def QTree.len : QTree → Nat
  | .mk _ _ a _ => a

def QTree.children : QTree → Option (List QTree)
  | .mk _ _ _ a => a

def QTree.tile : QTree → Tile
  | .mk r c l _ => ⟨r, c, l⟩

/-- The four candidate quadrant corners produced by
`QuadNode._iterSplitNode`, in source order
`(_nr, _nc) ∈ ((0,0), (0,1), (1,0), (1,1))`:
`(llr + length/2 * _nr, llc + length/2 * _nc)` (integer division). -/
def splitQuadrants (llr llc len : Nat) : List (Nat × Nat) :=
  [(llr, llc), (llr, llc + len / 2), (llr + len / 2, llc),
   (llr + len / 2, llc + len / 2)]

/-- `QuadNode._iterSplitNode`: the quadrant corners actually kept.  A
candidate child `n` is skipped iff
`n.displacement.size == 0 or num.all(n.displacement_mask)`.
(The `if self.length == 1: yield None` line of the source is unreachable:
`createTree` only splits nodes with `length >= 16`.) -/
def splitChildren (ctx : Ctx) (llr llc len : Nat) : List (Nat × Nat) :=
  (splitQuadrants llr llc len).filter fun p =>
    !(tileSize ctx p.1 p.2 (len / 2) == 0 ||
      tileNanCount ctx p.1 p.2 (len / 2) == tileSize ctx p.1 p.2 (len / 2))

/-- `QuadNode.createTree`, with an explicit fuel argument making the
recursion structural (the recursion of the source terminates because the
length halves; `fuel = length` always suffices, see `buildTreeFuel_congr`
and the unfolding lemma `buildTree_eq`).  A node is split, i.e. given
children, iff
`(corr(node) > epsilon_min or node.length >= 64) and not node.length < 16`,
the children being built from the kept quadrants at half the length. -/
def buildTreeFuel (ctx : Ctx) : Nat → Nat → Nat → Nat → QTree
  | 0, llr, llc, len => .mk llr llc len none
  | fuel + 1, llr, llc, len =>
    if (ctx.corr llr llc len > ctx.epsMin ∨ 64 ≤ len) ∧ ¬len < 16 then
      .mk llr llc len (some ((splitChildren ctx llr llc len).map fun p =>
        buildTreeFuel ctx fuel p.1 p.2 (len / 2)))
    else
      .mk llr llc len none

/-- `QuadNode.createTree` on the node `(llr, llc, len)`. -/
def buildTree (ctx : Ctx) (llr llc len : Nat) : QTree :=
  buildTreeFuel ctx len llr llc len

/-- `Quadtree._base_nodes`' initial side length
`2 ** ceil(log2(min(displacement.shape)))`: the least power of two that
is at least `min(rows, cols)`. -/
def initLength (rows cols : Nat) : Nat :=
  2 ^ (((List.range (min rows cols + 1)).find? fun k =>
    decide (min rows cols ≤ 2 ^ k)).getD 0)

/-- `Quadtree._base_nodes` followed by `Quadtree._initTree`: the raster
is covered by `ceil(rows/L) * ceil(cols/L)` base tiles of side
`L = initLength`, in row-major order, and `createTree` is run on each. -/
def quadtreeBases (ctx : Ctx) : List QTree :=
  let L := initLength ctx.rows ctx.cols
  let nx := (ctx.rows + L - 1) / L
  let ny := (ctx.cols + L - 1) / L
  (List.range nx).flatMap fun ir =>
    (List.range ny).map fun ic => buildTree ctx (ir * L) (ic * L) L

mutual
/-- `QuadNode.iterLeafs`: the leaf-selection walk at threshold `e` with
tile-size limits `(minpx, maxpx) = Quadtree._tile_size_lim_px`.  A node is
reported when `(corr(node) < e and not node.length > maxpx)` or it has no
children; otherwise, when `children[0].length < minpx` it is reported;
otherwise the walk recurses into the children.  (On an empty children
list the source raises `IndexError` at `children[0]`; that case is
modelled by `[]` and is unreachable on well-formed trees, see `WF`.) -/
def iterLeafs (ctx : Ctx) (minpx maxpx : Nat) (e : ℚ) : QTree → List Tile
  | .mk llr llc len none => [⟨llr, llc, len⟩]
  | .mk llr llc len (some ch) =>
    if ctx.corr llr llc len < e ∧ ¬len > maxpx then [⟨llr, llc, len⟩]
    else
      match ch with
      | [] => []
      | c :: _ =>
        if c.len < minpx then [⟨llr, llc, len⟩]
        else iterLeafsList ctx minpx maxpx e ch

/-- The walk over a list of nodes (the inner `for c in self.children`). -/
def iterLeafsList (ctx : Ctx) (minpx maxpx : Nat) (e : ℚ) :
    List QTree → List Tile
  | [] => []
  | t :: ts => iterLeafs ctx minpx maxpx e t ++ iterLeafsList ctx minpx maxpx e ts
end

mutual
/-- `QuadNode.iterChildren`: yields the node itself and, recursively,
every node below it. -/
def iterChildren : QTree → List Tile
  | .mk llr llc len none => [⟨llr, llc, len⟩]
  | .mk llr llc len (some ch) => ⟨llr, llc, len⟩ :: iterChildrenList ch

def iterChildrenList : List QTree → List Tile
  | [] => []
  | t :: ts => iterChildren t ++ iterChildrenList ts
end

mutual
/-- All subtrees (each node of the tree, as a tree). -/
def subtrees : QTree → List QTree
  | .mk llr llc len none => [.mk llr llc len none]
  | .mk llr llc len (some ch) => .mk llr llc len (some ch) :: subtreesList ch

def subtreesList : List QTree → List QTree
  | [] => []
  | t :: ts => subtrees t ++ subtreesList ts
end

/-- `Quadtree.nodes`: all nodes of the forest of base trees. -/
def quadtreeNodes (bases : List QTree) : List Tile :=
  iterChildrenList bases

/-- `Quadtree.leafs`: the walk leaves of every base node, filtered by
`l.nan_fraction < nan_allowed`. -/
def leafs (ctx : Ctx) (minpx maxpx : Nat) (bases : List QTree) (e a : ℚ) :
    List Tile :=
  (iterLeafsList ctx minpx maxpx e bases).filter fun t => nanFraction ctx t < a

/-- Sum of `displacement.size` over a list of nodes. -/
def sizeSum (ctx : Ctx) (ch : List QTree) : Nat :=
  (ch.map fun t => tileSize ctx t.llr t.llc t.len).sum

/-- Sum of NaN counts over a list of nodes. -/
def nanSum (ctx : Ctx) (ch : List QTree) : Nat :=
  (ch.map fun t => tileNanCount ctx t.llr t.llc t.len).sum

/-- Well-formedness of a (sub)tree, as established by `createTree` for
trees grown from power-of-two base nodes containing at least one valid
sample (`wf_buildTree`): every node holds a valid (non-NaN) sample; a
split node has a nonempty children list, children no longer than itself,
children whose total sample count is at most its own, and the samples it
does not pass on to children are all NaN (the accounting equation). -/
inductive WF (ctx : Ctx) : QTree → Prop where
  | leaf {llr llc len : Nat} :
      tileNanCount ctx llr llc len < tileSize ctx llr llc len →
      WF ctx (.mk llr llc len none)
  | node {llr llc len : Nat} {ch : List QTree} :
      tileNanCount ctx llr llc len < tileSize ctx llr llc len →
      ch ≠ [] →
      (∀ t ∈ ch, t.len ≤ len) →
      sizeSum ctx ch ≤ tileSize ctx llr llc len →
      tileNanCount ctx llr llc len + sizeSum ctx ch
        = nanSum ctx ch + tileSize ctx llr llc len →
      (∀ t ∈ ch, WF ctx t) →
      WF ctx (.mk llr llc len (some ch))

/-- The nan-filtered leaf walk of a single tree (the contribution of one
base node to `Quadtree.leafs`). -/
def walkF (ctx : Ctx) (minpx maxpx : Nat) (e a : ℚ) (t : QTree) : List Tile :=
  (iterLeafs ctx minpx maxpx e t).filter fun x => nanFraction ctx x < a

/-! ## Quadtree configuration setters (`Quadtree.epsilon`,
`Quadtree.nan_allowed`, `Quadtree.tile_size_min`, `Quadtree.tile_size_max`)

Each property setter is modelled as a pure state transition returning the
new state together with a `Bool` that is `true` exactly when the setter
emitted its `_log.warning` rejection message.  All setters are total
functions: none of them raises. -/

/-- The mutable fields of `QuadtreeConfig` the setters touch. -/
structure QuadtreeConfig where
  epsilon : ℚ
  nan_allowed : ℚ
  tile_size_min : ℚ
  tile_size_max : ℚ
deriving DecidableEq, Repr

/-- The state a `Quadtree` instance carries across setter calls:
the config, the derived `epsilon_min`, and the two caches the setters
invalidate (`Quadtree.leafs` via `self.leafs = None`, and
`Quadtree._tile_size_lim_px` via `_tileSizeChanged`). -/
structure QuadtreeState where
  config : QuadtreeConfig
  epsilonMin : ℚ
  leafsCache : Option (List Tile)
  tileLimCache : Option (Nat × Nat)
deriving DecidableEq, Repr

/-- `Quadtree.epsilon` setter: return silently when the value equals the
current one; warn and return when `value < epsilon_min`; otherwise clear
the leaf cache and store the value. -/
def setEpsilon (s : QuadtreeState) (v : ℚ) : QuadtreeState × Bool :=
  if s.config.epsilon = v then (s, false)
  else if v < s.epsilonMin then (s, true)
  else ({ s with config := { s.config with epsilon := v },
                 leafsCache := none }, false)

/-- `Quadtree.nan_allowed` setter: warn and return when
`value > 1 or value <= 0`; otherwise clear the leaf cache and store. -/
def setNanAllowed (s : QuadtreeState) (v : ℚ) : QuadtreeState × Bool :=
  if v > 1 ∨ v ≤ 0 then (s, true)
  else ({ s with config := { s.config with nan_allowed := v },
                 leafsCache := none }, false)

/-- `Quadtree.tile_size_min` setter: warn and return when
`value > tile_size_max`; otherwise store and run `_tileSizeChanged`
(which clears `_tile_size_lim_px` and the leaf cache). -/
def setTileSizeMin (s : QuadtreeState) (v : ℚ) : QuadtreeState × Bool :=
  if v > s.config.tile_size_max then (s, true)
  else ({ s with config := { s.config with tile_size_min := v },
                 tileLimCache := none, leafsCache := none }, false)

/-- `Quadtree.tile_size_max` setter: warn and return when
`value < tile_size_min`; otherwise store and run `_tileSizeChanged`. -/
def setTileSizeMax (s : QuadtreeState) (v : ℚ) : QuadtreeState × Bool :=
  if v < s.config.tile_size_min then (s, true)
  else ({ s with config := { s.config with tile_size_max := v },
                 tileLimCache := none, leafsCache := none }, false)

/-! ## Covariance (`src/covariance.py`) -/

/-- `num.max` over a 1-d array (`num.max` raises on an empty array; the
`[]` case returns a junk value and is never relied upon). -/
def arrayMax : List ℚ → ℚ
  | [] => 0
  | x :: xs => xs.foldl max x

/-- The state of a `Covariance` instance that its matrix construction
consumes, for a current leaf count `n`.

* `covCurve` is `covariance_func[0]`, the empirical covariance sequence
  (the DCT of the binned noise power spectrum).
* `interp` is the scipy `interp1d(d, cov, kind='nearest', fill_value=0)`
  interpolant built by `Covariance.covariance`; the claims under study
  hold for every interpolant, so it is a parameter.
* `dist` is the leaf-pair distance matrix.  On the production path
  (`method='matrix_c'`) it is produced by `covariance_ext.leaf_distances`.
  Modelled from the spec: `covariance_ext` is a native extension whose
  source is not part of the repository snapshot; per spec §4.5 it is the
  "equivalent computation" to the `'matrix'` strategy — the median of the
  cross-pairwise distances of the two leaves' subsampled pixel sets —
  which is invariant under swapping the two leaves, i.e. symmetric.
  Symmetry of `dist` is therefore taken as a hypothesis where needed.
* `fitA`, `fitB` are the fitted coefficients `covariance_coeff` and
  `configVariance` is `CovarianceConfig.variance` (default `9999.`);
  they are carried to state that the variance used for the matrix
  diagonal depends on neither. -/
structure CovModel (n : Nat) where
  covCurve : List ℚ
  interp : ℚ → ℚ
  dist : Fin n → Fin n → ℚ
  fitA : ℚ
  fitB : ℚ
  configVariance : ℚ

/-- `Covariance.variance`: `num.max(self.covariance_func[0])` — the
maximum of the empirical covariance curve, not `config.variance` and not
a fitted coefficient. -/
def variance {n : Nat} (m : CovModel n) : ℚ :=
  arrayMax m.covCurve

/-- `Covariance._calcDistanceMatrix` (matrix assembly):
`cov_matrix = self.covariance(dist_matrix)` applied elementwise, then
`num.fill_diagonal(cov_matrix, self.variance)`. -/
def covariance_matrix {n : Nat} (m : CovModel n) :
    Matrix (Fin n) (Fin n) ℚ :=
  Matrix.of fun i j => if i = j then variance m else m.interp (m.dist i j)

/-- `num.linalg.inv` (on an invertible matrix) via the adjugate formula;
on a singular matrix numpy raises `LinAlgError`, here `det⁻¹ = 0`
produces junk — the claims only concern the invertible case. -/
def matInverse {n : Nat} (A : Matrix (Fin n) (Fin n) ℚ) :
    Matrix (Fin n) (Fin n) ℚ :=
  (A.det)⁻¹ • A.adjugate

/-- `Covariance.weight_matrix = num.linalg.inv(self.covariance_matrix)`. -/
def weight_matrix {n : Nat} (m : CovModel n) : Matrix (Fin n) (Fin n) ℚ :=
  matInverse (covariance_matrix m)

/-- An argument to `Covariance.getCovariance` / `_getMapping`: a leaf
object or an id string (`if not isinstance(leaf, str): leaf = leaf.id`). -/
inductive LeafRef where
  | byId (s : String)
  | byTile (t : Tile)
deriving DecidableEq, Repr

/-- The id string `_getMapping` looks up for an argument. -/
def LeafRef.resolve : LeafRef → String
  | .byId s => s
  | .byTile t => tileId t

/-- The leaf-id → matrix-index mapping `Covariance._leaf_mapping`, which
`_mapLeafs` populates with the index of each current leaf in
`quadtree.leafs` while a matrix is built. -/
def leafIdx (ids : List String) (l : String) : Option Nat :=
  ids.findIdx? fun s => s == l

/-- `Covariance._getMapping`: resolve both arguments to id strings and
look them up; a missing key raises
`KeyError('Unknown quadtree leaf with id %s' % e)` — modelled as an
`Except` error carrying the offending id (the first argument is looked
up first, as in the source tuple expression). -/
def getMapping (ids : List String) (l1 l2 : LeafRef) :
    Except String (Nat × Nat) :=
  match leafIdx ids l1.resolve with
  | none => .error l1.resolve
  | some i =>
    match leafIdx ids l2.resolve with
    | none => .error l2.resolve
    | some j => .ok (i, j)

/-- Entry of the covariance matrix at (always in-range) Nat indices. -/
def covEntry {n : Nat} (m : CovModel n) (i j : Nat) : ℚ :=
  if h : i < n ∧ j < n then covariance_matrix m ⟨i, h.1⟩ ⟨j, h.2⟩ else 0

/-- `Covariance.getCovariance`:
`self.covariance_matrix[self._getMapping(leaf1, leaf2)]`. -/
def getCovariance {n : Nat} (m : CovModel n) (ids : List String)
    (l1 l2 : LeafRef) : Except String ℚ :=
  (getMapping ids l1 l2).map fun p => covEntry m p.1 p.2

/-- The distance axis of `Covariance.covariance_func`.  In the source:
`k_x = fftfreq(f_spec.shape[0], d=frame.dE)` and
`k_y = fftfreq(f_spec.shape[1], d=frame.dN)`, so `k_x.size` is the number
of noise-patch rows and `k_y.size` the number of columns; then

    dk = self._quadtree.frame.dE if k_x.size > k_y.size \
        else self._quadtree.frame.dE
    d = num.arange(1, cov.size+1) * dk

— note that *both* branches of the conditional read `dE` (`dN` is never
used), which is embedded verbatim below. -/
def covFuncDistances (dE dN : ℚ) (kxSize kySize : Nat) (covSize : Nat) :
    List ℚ :=
  let dk := if kxSize > kySize then dE else dE
  (List.range covSize).map fun i => ((i : ℚ) + 1) * dk

/-! ## Attribute-level model of `Covariance.__init__` against `Quadtree`

`Covariance.__init__` reads `quadtree._scene` (line 107),
`quadtree._log` (line 112) and `quadtree.treeUpdate` (line 113).  Python
resolves each read against the instance and class attributes of
`Quadtree`; a missing name raises `AttributeError`. -/

/-- Every attribute name a `Quadtree` instance exposes: class-level
attributes and methods, properties, and the instance attributes assigned
in `Quadtree.__init__` / `setConfig` / `setCorrection`. -/
def quadtreeAttrs : List String :=
  ["evChanged", "evConfigChanged", "_corrections", "_norm_methods",
   "setConfig", "setCorrection", "_initTree", "_tileSizeChanged",
   "_getLeafsNormMatrix", "getStaticTarget", "export",
   "epsilon", "_epsilon_init", "epsilon_min", "nan_allowed",
   "tile_size_min", "tile_size_max", "_tile_size_lim_px",
   "nodes", "nnodes", "leafs", "nleafs", "leaf_means", "leaf_medians",
   "_leaf_focal_points", "leaf_focal_points", "leaf_matrix_means",
   "leaf_matrix_medians", "leaf_matrix_weights", "reduction_efficiency",
   "reduction_rms", "_base_nodes", "plot",
   "_leafs", "scene", "displacement", "frame",
   "_leaf_matrix_means", "_leaf_matrix_medians", "_leaf_matrix_weights",
   "_log", "config", "_corr_func"]

/-- A Python attribute read: `ok` if the name is an attribute of the
object, otherwise `AttributeError` carrying the name. -/
def getattrOrErr (attrs : List String) (name : String) :
    Except String Unit :=
  if name ∈ attrs then .ok () else .error name

/-- The sequence of attribute reads `Covariance.__init__` performs on its
`quadtree` argument, in source order; the first missing attribute aborts
the constructor. -/
def covarianceInitAccess (attrs : List String) : Except String Unit :=
  getattrOrErr attrs "_scene" >>= fun _ =>
    getattrOrErr attrs "_log" >>= fun _ =>
      getattrOrErr attrs "treeUpdate"

/-! ## Concrete instances used by counterexamples and witnesses -/

/-- A 33 × 33 raster with no NaN values and a constant displacement
field: every correction metric (`nanstd` around mean/median/detrend, and
plain `nanstd`) is `0`, and `epsilon_min = 0.2 * nanstd(displacement)`
is `0` as well.  Its base-node side length is
`initLength 33 33 = 2 ^ ceil(log2 33) = 64`. -/
def ctx33 : Ctx :=
  { rows := 33, cols := 33, isNaN := fun _ _ => false,
    corr := fun _ _ _ => 0, epsMin := 0 }

/-- A 16 × 16 NaN-free raster whose correction metric is the constant
`1` with `epsilon_min = 0`: every node with `length ≥ 16` splits.  Its
base-node side length is `initLength 16 16 = 16`. -/
def ctx16 : Ctx :=
  { rows := 16, cols := 16, isNaN := fun _ _ => false,
    corr := fun _ _ _ => 1, epsMin := 0 }

/-- A 2 × 2 raster whose cell `(0, 1)` is NaN, with constant-zero metric:
the single base node `(0, 0, 2)` is a leaf with NaN fraction `1/4`. -/
def ctx2 : Ctx :=
  { rows := 2, cols := 2, isNaN := fun r c => decide (r = 0 ∧ c = 1),
    corr := fun _ _ _ => 0, epsMin := 0 }

/-- A state whose `config.epsilon` (= 1) already sits below
`epsilon_min` (= 2); reachable through the public API, e.g. by loading a
config with `epsilon = 1` on data whose `epsilon_min` is `2` (the
`self.epsilon = self.config.epsilon or ...` assignment in
`setCorrection` is silently swallowed by the setter's early-equality
return). -/
def exState : QuadtreeState :=
  { config := { epsilon := 1, nan_allowed := 1,
                tile_size_min := 250, tile_size_max := 25000 },
    epsilonMin := 2, leafsCache := none, tileLimCache := none }

/-- A one-leaf id mapping (the leaf `(0, 0, 2)`). -/
def ids1 : List String := [tileId ⟨0, 0, 2⟩]

/-- A concrete 2-leaf covariance model with a symmetric distance matrix. -/
def mC3 : CovModel 2 :=
  { covCurve := [3, 7, 1], interp := fun d => d / 2,
    dist := fun i j => if i = j then 0 else 5,
    fitA := 11, fitB := 13, configVariance := 9999 }

/-- `mC3` with different fit coefficients and config variance (same
empirical curve). -/
def mC3' : CovModel 2 :=
  { covCurve := [3, 7, 1], interp := fun d => d / 3,
    dist := fun i j => if i = j then 0 else 4,
    fitA := 17, fitB := 19, configVariance := 1 }

/-- A concrete 1-leaf covariance model (covariance matrix `[[5]]`). -/
def mC4 : CovModel 1 :=
  { covCurve := [5, 2], interp := fun d => d,
    dist := fun _ _ => 0, fitA := 1, fitB := 1, configVariance := 9999 }

/-! ## Basic lemmas about the embedding -/

theorem buildTreeFuel_zero_len (ctx : Ctx) (f llr llc : Nat) :
    buildTreeFuel ctx f llr llc 0 = .mk llr llc 0 none := by
  cases f with
  | zero => rfl
  | succ f => simp [buildTreeFuel]

/-- The fuel argument of `buildTreeFuel` is irrelevant as soon as it is
at least the side length: the recursion of `createTree` terminates. -/
theorem buildTreeFuel_congr (ctx : Ctx) :
    ∀ f g llr llc len, len ≤ f → len ≤ g →
      buildTreeFuel ctx f llr llc len = buildTreeFuel ctx g llr llc len := by
  intro f
  induction f with
  | zero =>
    intro g llr llc len hf _
    have h0 : len = 0 := Nat.le_zero.mp hf
    subst h0
    rw [buildTreeFuel_zero_len, buildTreeFuel_zero_len]
  | succ f ih =>
    intro g llr llc len hf hg
    cases g with
    | zero =>
      have h0 : len = 0 := Nat.le_zero.mp hg
      subst h0
      rw [buildTreeFuel_zero_len, buildTreeFuel_zero_len]
    | succ g =>
      simp only [buildTreeFuel]
      by_cases hc : (ctx.corr llr llc len > ctx.epsMin ∨ 64 ≤ len) ∧ ¬len < 16
      · rw [if_pos hc, if_pos hc]
        have hmap : ∀ p ∈ splitChildren ctx llr llc len,
            buildTreeFuel ctx f p.1 p.2 (len / 2)
              = buildTreeFuel ctx g p.1 p.2 (len / 2) := by
          intro p _
          apply ih
          · omega
          · have h16 : 16 ≤ len := by omega
            have := hc.2
            omega
        rw [List.map_congr_left hmap]
      · rw [if_neg hc, if_neg hc]

/-- Source-shaped unfolding of `createTree`: a node is given children iff
`(corr(node) > epsilon_min or length >= 64) and not length < 16`, the
children being the kept quadrants built recursively at half the length. -/
theorem buildTree_eq (ctx : Ctx) (llr llc len : Nat) :
    buildTree ctx llr llc len =
      if (ctx.corr llr llc len > ctx.epsMin ∨ 64 ≤ len) ∧ ¬len < 16 then
        .mk llr llc len (some ((splitChildren ctx llr llc len).map fun p =>
          buildTree ctx p.1 p.2 (len / 2)))
      else .mk llr llc len none := by
  unfold buildTree
  cases len with
  | zero =>
    rw [buildTreeFuel_zero_len]
    rw [if_neg]
    intro hc
    exact hc.2 (by omega)
  | succ n =>
    simp only [buildTreeFuel]
    by_cases hc : (ctx.corr llr llc (n + 1) > ctx.epsMin ∨ 64 ≤ n + 1) ∧ ¬n + 1 < 16
    · rw [if_pos hc, if_pos hc]
      have hmap : ∀ p ∈ splitChildren ctx llr llc (n + 1),
          buildTreeFuel ctx n p.1 p.2 ((n + 1) / 2)
            = buildTreeFuel ctx ((n + 1) / 2) p.1 p.2 ((n + 1) / 2) := by
        intro p _
        apply buildTreeFuel_congr
        · have := hc.2
          omega
        · exact Nat.le_refl _
      rw [List.map_congr_left hmap]
    · rw [if_neg hc, if_neg hc]

theorem buildTree_tile (ctx : Ctx) (llr llc len : Nat) :
    (buildTree ctx llr llc len).tile = ⟨llr, llc, len⟩ := by
  rw [buildTree_eq]
  split <;> rfl

theorem buildTree_len (ctx : Ctx) (llr llc len : Nat) :
    (buildTree ctx llr llc len).len = len := by
  rw [buildTree_eq]
  split <;> rfl

/-- Pointwise form of the quadrant partition: for an even side `2 * h`,
a raster cell lies in the parent rectangle iff it lies in exactly one of
the four candidate quadrant rectangles. -/
theorem inTile_quad (llr llc h r c : Nat) :
    (if inTile llr llc (2 * h) r c then (1 : Nat) else 0) =
      (if inTile llr llc h r c then 1 else 0) +
      (if inTile llr (llc + h) h r c then 1 else 0) +
      (if inTile (llr + h) llc h r c then 1 else 0) +
      (if inTile (llr + h) (llc + h) h r c then 1 else 0) := by
  simp only [inTile, decide_eq_true_eq]
  split_ifs <;> omega

theorem inTile_quad_nan (llr llc h r c : Nat) (b : Bool) :
    (if inTile llr llc (2 * h) r c && b then (1 : Nat) else 0) =
      (if inTile llr llc h r c && b then 1 else 0) +
      (if inTile llr (llc + h) h r c && b then 1 else 0) +
      (if inTile (llr + h) llc h r c && b then 1 else 0) +
      (if inTile (llr + h) (llc + h) h r c && b then 1 else 0) := by
  cases b
  · simp
  · simpa using inTile_quad llr llc h r c

theorem cellCount_quad_add (ctx : Ctx) (f g1 g2 g3 g4 : Nat → Nat → Bool)
    (hpt : ∀ r c, (if f r c then (1 : Nat) else 0) =
      (if g1 r c then 1 else 0) + (if g2 r c then 1 else 0) +
      (if g3 r c then 1 else 0) + (if g4 r c then 1 else 0)) :
    cellCount ctx f =
      cellCount ctx g1 + cellCount ctx g2 + cellCount ctx g3 + cellCount ctx g4 := by
  unfold cellCount
  have h1 : (∑ r ∈ Finset.range ctx.rows, ∑ c ∈ Finset.range ctx.cols,
      if f r c then (1 : Nat) else 0) =
      ∑ r ∈ Finset.range ctx.rows, ∑ c ∈ Finset.range ctx.cols,
        ((if g1 r c then (1 : Nat) else 0) + (if g2 r c then 1 else 0) +
         (if g3 r c then 1 else 0) + (if g4 r c then 1 else 0)) :=
    Finset.sum_congr rfl fun r _ => Finset.sum_congr rfl fun c _ => hpt r c
  rw [h1]
  simp only [Finset.sum_add_distrib]

/-- Counting form of the quadrant partition: for an even side the sample
counts of the four quadrants add up exactly to the parent's. -/
theorem tileSize_split (ctx : Ctx) (llr llc h : Nat) :
    tileSize ctx llr llc (2 * h) =
      tileSize ctx llr llc h + tileSize ctx llr (llc + h) h +
      tileSize ctx (llr + h) llc h + tileSize ctx (llr + h) (llc + h) h :=
  cellCount_quad_add ctx _ _ _ _ _ fun r c => inTile_quad llr llc h r c

theorem tileNanCount_split (ctx : Ctx) (llr llc h : Nat) :
    tileNanCount ctx llr llc (2 * h) =
      tileNanCount ctx llr llc h + tileNanCount ctx llr (llc + h) h +
      tileNanCount ctx (llr + h) llc h + tileNanCount ctx (llr + h) (llc + h) h :=
  cellCount_quad_add ctx _ _ _ _ _ fun r c => inTile_quad_nan llr llc h r c _

theorem tileNanCount_le (ctx : Ctx) (llr llc len : Nat) :
    tileNanCount ctx llr llc len ≤ tileSize ctx llr llc len := by
  unfold tileNanCount tileSize cellCount
  refine Finset.sum_le_sum fun r _ => Finset.sum_le_sum fun c _ => ?_
  cases hp : inTile llr llc len r c <;> cases hq : ctx.isNaN r c <;> simp [hp, hq]

theorem buildTree_llr (ctx : Ctx) (llr llc len : Nat) :
    (buildTree ctx llr llc len).llr = llr := by
  rw [buildTree_eq]
  split <;> rfl

theorem buildTree_llc (ctx : Ctx) (llr llc len : Nat) :
    (buildTree ctx llr llc len).llc = llc := by
  rw [buildTree_eq]
  split <;> rfl

theorem mem_splitChildren (ctx : Ctx) (llr llc len : Nat) (p : Nat × Nat) :
    p ∈ splitChildren ctx llr llc len ↔
      p ∈ splitQuadrants llr llc len ∧
        ¬(tileSize ctx p.1 p.2 (len / 2) = 0 ∨
          tileNanCount ctx p.1 p.2 (len / 2) = tileSize ctx p.1 p.2 (len / 2)) := by
  unfold splitChildren
  rw [List.mem_filter]
  simp [not_or]

/-- Accounting over a filtered list: if dropped entries have `nn = sz`,
the kept `sz`-total is bounded by the full `sz`-total and the full
`nn`-total plus the kept `sz`-total equals the kept `nn`-total plus the
full `sz`-total. -/
theorem filter_sum_accounting {α : Type} (sz nn : α → Nat) (P : α → Bool) :
    ∀ l : List α, (∀ p ∈ l, nn p ≤ sz p) →
      (∀ p ∈ l, P p = false → nn p = sz p) →
      ((l.filter P).map sz).sum ≤ (l.map sz).sum ∧
        (l.map nn).sum + ((l.filter P).map sz).sum
          = ((l.filter P).map nn).sum + (l.map sz).sum := by
  intro l
  induction l with
  | nil => simp
  | cons a l ih =>
    intro hle hP
    have ihl := ih (fun p hp => hle p (List.mem_cons_of_mem a hp))
      (fun p hp => hP p (List.mem_cons_of_mem a hp))
    cases hPa : P a with
    | true =>
      simp only [List.filter_cons, hPa, if_true, List.map_cons, List.sum_cons]
      omega
    | false =>
      have hnn := hP a (List.mem_cons_self a l) hPa
      simp only [List.filter_cons, hPa, Bool.false_eq_true, if_false,
        List.map_cons, List.sum_cons]
      omega

theorem splitQuadrants_size_sum (ctx : Ctx) (llr llc h : Nat) :
    ((splitQuadrants llr llc (2 * h)).map fun p => tileSize ctx p.1 p.2 h).sum
      = tileSize ctx llr llc (2 * h) := by
  have hs := tileSize_split ctx llr llc h
  have h2 : 2 * h / 2 = h := by omega
  simp only [splitQuadrants, h2, List.map_cons, List.map_nil, List.sum_cons,
    List.sum_nil]
  omega

theorem splitQuadrants_nan_sum (ctx : Ctx) (llr llc h : Nat) :
    ((splitQuadrants llr llc (2 * h)).map fun p => tileNanCount ctx p.1 p.2 h).sum
      = tileNanCount ctx llr llc (2 * h) := by
  have hs := tileNanCount_split ctx llr llc h
  have h2 : 2 * h / 2 = h := by omega
  simp only [splitQuadrants, h2, List.map_cons, List.map_nil, List.sum_cons,
    List.sum_nil]
  omega

/-- The accounting of `_iterSplitNode` for an even side length: the kept
quadrants' sample total is at most the parent's, and the samples the
parent does not pass to a kept quadrant are exactly the NaN samples of
the dropped quadrants. -/
theorem splitChildren_acc (ctx : Ctx) (llr llc len : Nat)
    (he : len = 2 * (len / 2)) :
    ((splitChildren ctx llr llc len).map fun p => tileSize ctx p.1 p.2 (len / 2)).sum
        ≤ tileSize ctx llr llc len ∧
      tileNanCount ctx llr llc len +
          ((splitChildren ctx llr llc len).map fun p =>
            tileSize ctx p.1 p.2 (len / 2)).sum
        = ((splitChildren ctx llr llc len).map fun p =>
            tileNanCount ctx p.1 p.2 (len / 2)).sum + tileSize ctx llr llc len := by
  obtain ⟨h, rfl⟩ : ∃ h, len = 2 * h := ⟨len / 2, he⟩
  have h2 : 2 * h / 2 = h := by omega
  have key := filter_sum_accounting
    (fun p : Nat × Nat => tileSize ctx p.1 p.2 h)
    (fun p : Nat × Nat => tileNanCount ctx p.1 p.2 h)
    (fun p : Nat × Nat => !(tileSize ctx p.1 p.2 h == 0 ||
      tileNanCount ctx p.1 p.2 h == tileSize ctx p.1 p.2 h))
    (splitQuadrants llr llc (2 * h))
    (fun p _ => tileNanCount_le ctx p.1 p.2 h)
    (by
      intro p _ hfalse
      simp only [Bool.not_eq_false', Bool.or_eq_true, beq_iff_eq] at hfalse
      have hle := tileNanCount_le ctx p.1 p.2 h
      show tileNanCount ctx p.1 p.2 h = tileSize ctx p.1 p.2 h
      rcases hfalse with hz | he2
      · omega
      · exact he2)
  rw [splitQuadrants_size_sum, splitQuadrants_nan_sum] at key
  unfold splitChildren
  simp only [h2]
  exact key

theorem sizeSum_map (ctx : Ctx) (ps : List (Nat × Nat)) (m : Nat) :
    sizeSum ctx (ps.map fun p => buildTree ctx p.1 p.2 m)
      = (ps.map fun p => tileSize ctx p.1 p.2 m).sum := by
  unfold sizeSum
  rw [List.map_map]
  congr 1
  apply List.map_congr_left
  intro p _
  simp [Function.comp, buildTree_llr, buildTree_llc, buildTree_len]

theorem nanSum_map (ctx : Ctx) (ps : List (Nat × Nat)) (m : Nat) :
    nanSum ctx (ps.map fun p => buildTree ctx p.1 p.2 m)
      = (ps.map fun p => tileNanCount ctx p.1 p.2 m).sum := by
  unfold nanSum
  rw [List.map_map]
  congr 1
  apply List.map_congr_left
  intro p _
  simp [Function.comp, buildTree_llr, buildTree_llc, buildTree_len]

/-- `createTree`, started on a power-of-two node containing at least one
valid sample, produces a well-formed tree. -/
theorem wf_buildTree (ctx : Ctx) :
    ∀ len llr llc, (∃ k, len = 2 ^ k) →
      tileNanCount ctx llr llc len < tileSize ctx llr llc len →
      WF ctx (buildTree ctx llr llc len) := by
  intro len
  induction len using Nat.strong_induction_on with
  | _ len ih =>
    intro llr llc hpow hv
    rw [buildTree_eq]
    by_cases hc : (ctx.corr llr llc len > ctx.epsMin ∨ 64 ≤ len) ∧ ¬len < 16
    · rw [if_pos hc]
      obtain ⟨k, hk⟩ := hpow
      have h16 : 16 ≤ len := by omega
      obtain ⟨k', rfl⟩ : ∃ k', k = k' + 1 := by
        refine ⟨k - 1, ?_⟩
        rcases Nat.eq_zero_or_pos k with h0 | h1
        · subst h0
          simp at hk
          omega
        · omega
      have hl2 : len = 2 ^ k' * 2 := by rw [hk, pow_succ]
      have heven : len = 2 * (len / 2) := by omega
      have hhalf : len / 2 = 2 ^ k' := by omega
      have hacc := splitChildren_acc ctx llr llc len heven
      have hmemv : ∀ p ∈ splitChildren ctx llr llc len,
          tileNanCount ctx p.1 p.2 (len / 2) < tileSize ctx p.1 p.2 (len / 2) := by
        intro p hp
        have := (mem_splitChildren ctx llr llc len p).mp hp
        have hle := tileNanCount_le ctx p.1 p.2 (len / 2)
        push_neg at this
        omega
      apply WF.node hv
      · intro hnil
        rw [List.map_eq_nil_iff] at hnil
        rw [hnil] at hacc
        simp at hacc
        omega
      · intro t ht
        rw [List.mem_map] at ht
        obtain ⟨p, _, rfl⟩ := ht
        rw [buildTree_len]
        omega
      · rw [sizeSum_map]
        exact hacc.1
      · rw [sizeSum_map, nanSum_map]
        exact hacc.2
      · intro t ht
        rw [List.mem_map] at ht
        obtain ⟨p, hp, rfl⟩ := ht
        exact ih (len / 2) (by omega) p.1 p.2 ⟨k', hhalf⟩ (hmemv p hp)
    · rw [if_neg hc]
      exact WF.leaf hv

/-- If every node of a list has NaN count at least `a` times its sample
count, so do the list totals. -/
theorem avg_bound (ctx : Ctx) (a : ℚ) :
    ∀ ch : List QTree,
      (∀ t ∈ ch, a * (tileSize ctx t.llr t.llc t.len : ℚ)
        ≤ (tileNanCount ctx t.llr t.llc t.len : ℚ)) →
      a * (sizeSum ctx ch : ℚ) ≤ (nanSum ctx ch : ℚ) := by
  intro ch
  induction ch with
  | nil => simp [sizeSum, nanSum]
  | cons t ts ih =>
    intro h
    have h1 := h t (List.mem_cons_self t ts)
    have h2 := ih fun u hu => h u (List.mem_cons_of_mem t hu)
    unfold sizeSum nanSum at h2 ⊢
    simp only [List.map_cons, List.sum_cons]
    push_cast
    rw [mul_add]
    push_cast at h2
    linarith

theorem mem_iterLeafsList_of_mem (ctx : Ctx) (minpx maxpx : Nat) (e : ℚ) :
    ∀ ch : List QTree, ∀ u ∈ ch, ∀ x ∈ iterLeafs ctx minpx maxpx e u,
      x ∈ iterLeafsList ctx minpx maxpx e ch := by
  intro ch
  induction ch with
  | nil => simp
  | cons t ts ih =>
    intro u hu x hx
    simp only [iterLeafsList, List.mem_append]
    rcases List.mem_cons.mp hu with rfl | hu2
    · exact Or.inl hx
    · exact Or.inr (ih u hu2 x hx)

theorem iterLeafs_leaf (ctx : Ctx) (minpx maxpx : Nat) (e : ℚ)
    (llr llc len : Nat) :
    iterLeafs ctx minpx maxpx e (.mk llr llc len none) = [⟨llr, llc, len⟩] :=
  rfl

theorem iterLeafs_node (ctx : Ctx) (minpx maxpx : Nat) (e : ℚ)
    (llr llc len : Nat) (c : QTree) (cs : List QTree) :
    iterLeafs ctx minpx maxpx e (.mk llr llc len (some (c :: cs))) =
      if ctx.corr llr llc len < e ∧ ¬len > maxpx then [⟨llr, llc, len⟩]
      else if c.len < minpx then [⟨llr, llc, len⟩]
      else iterLeafsList ctx minpx maxpx e (c :: cs) :=
  rfl

/-- A well-formed tree whose root satisfies the strict NaN-allowance test
contributes at least one leaf (of side at most the root's) to the
filtered leaf walk at every threshold. -/
theorem walkF_cover (ctx : Ctx) (minpx maxpx : Nat) (e a : ℚ) (ha : a ≤ 1) :
    ∀ {t : QTree}, WF ctx t →
      (tileNanCount ctx t.llr t.llc t.len : ℚ)
          < a * (tileSize ctx t.llr t.llc t.len : ℚ) →
      ∃ v ∈ walkF ctx minpx maxpx e a t, v.len ≤ t.len := by
  intro t hwf
  induction hwf with
  | @leaf llr llc len hv =>
    intro hroot
    simp only [QTree.llr, QTree.llc, QTree.len] at hroot ⊢
    have hszpos : (0 : ℚ) < (tileSize ctx llr llc len : ℚ) := by
      exact_mod_cast Nat.lt_of_le_of_lt (Nat.zero_le _) hv
    have hfrac : nanFraction ctx ⟨llr, llc, len⟩ < a := by
      unfold nanFraction
      rw [div_lt_iff₀ hszpos]
      exact hroot
    refine ⟨⟨llr, llc, len⟩, ?_, le_rfl⟩
    simp [walkF, iterLeafs_leaf, List.mem_filter, hfrac]
  | @node llr llc len ch hv hne hlen hsz hnan hch ih =>
    intro hroot
    simp only [QTree.llr, QTree.llc, QTree.len] at hroot ⊢
    have hszpos : (0 : ℚ) < (tileSize ctx llr llc len : ℚ) := by
      exact_mod_cast Nat.lt_of_le_of_lt (Nat.zero_le _) hv
    have hfrac : nanFraction ctx ⟨llr, llc, len⟩ < a := by
      unfold nanFraction
      rw [div_lt_iff₀ hszpos]
      exact hroot
    simp only [walkF]
    cases ch with
    | nil => exact absurd rfl hne
    | cons c cs =>
      rw [iterLeafs_node]
      by_cases hc1 : ctx.corr llr llc len < e ∧ ¬len > maxpx
      · rw [if_pos hc1]
        refine ⟨⟨llr, llc, len⟩, ?_, le_rfl⟩
        simp [List.mem_filter, hfrac]
      · rw [if_neg hc1]
        by_cases hcmin : c.len < minpx
        · rw [if_pos hcmin]
          refine ⟨⟨llr, llc, len⟩, ?_, le_rfl⟩
          simp [List.mem_filter, hfrac]
        · rw [if_neg hcmin]
          have hex : ∃ u ∈ c :: cs,
              (tileNanCount ctx u.llr u.llc u.len : ℚ)
                < a * (tileSize ctx u.llr u.llc u.len : ℚ) := by
            by_contra hall
            push_neg at hall
            have havg := avg_bound ctx a (c :: cs) hall
            have hQ : (tileNanCount ctx llr llc len : ℚ) + (sizeSum ctx (c :: cs) : ℚ)
                = (nanSum ctx (c :: cs) : ℚ) + (tileSize ctx llr llc len : ℚ) := by
              exact_mod_cast hnan
            have hszQ : (sizeSum ctx (c :: cs) : ℚ) ≤ (tileSize ctx llr llc len : ℚ) := by
              exact_mod_cast hsz
            have hgap : a * ((tileSize ctx llr llc len : ℚ) - (sizeSum ctx (c :: cs) : ℚ))
                ≤ (tileSize ctx llr llc len : ℚ) - (sizeSum ctx (c :: cs) : ℚ) :=
              mul_le_of_le_one_left (by linarith) ha
            have hsplit : a * (tileSize ctx llr llc len : ℚ)
                = a * (sizeSum ctx (c :: cs) : ℚ)
                  + a * ((tileSize ctx llr llc len : ℚ) - (sizeSum ctx (c :: cs) : ℚ)) := by
              ring
            linarith
          obtain ⟨u, hu, hub⟩ := hex
          obtain ⟨v, hv1, hv2⟩ := ih u hu hub
          refine ⟨v, ?_, le_trans hv2 (hlen u hu)⟩
          rw [walkF, List.mem_filter] at hv1
          rw [List.mem_filter]
          exact ⟨mem_iterLeafsList_of_mem ctx minpx maxpx e (c :: cs) u hu v hv1.1,
            hv1.2⟩

/-- Per-list version of `walkF_mono`. -/
theorem forest_mono_aux (ctx : Ctx) (minpx maxpx : Nat) (e1 e2 a : ℚ) :
    ∀ ch : List QTree,
      (∀ u ∈ ch,
        (walkF ctx minpx maxpx e2 a u).length ≤ (walkF ctx minpx maxpx e1 a u).length ∧
        ∀ x ∈ walkF ctx minpx maxpx e2 a u,
          ∃ v ∈ walkF ctx minpx maxpx e1 a u, v.len ≤ x.len) →
      ((iterLeafsList ctx minpx maxpx e2 ch).filter
          (fun x => nanFraction ctx x < a)).length
        ≤ ((iterLeafsList ctx minpx maxpx e1 ch).filter
          (fun x => nanFraction ctx x < a)).length ∧
      ∀ x ∈ (iterLeafsList ctx minpx maxpx e2 ch).filter
          (fun x => nanFraction ctx x < a),
        ∃ v ∈ (iterLeafsList ctx minpx maxpx e1 ch).filter
          (fun x => nanFraction ctx x < a), v.len ≤ x.len := by
  intro ch
  induction ch with
  | nil => simp [iterLeafsList]
  | cons t ts ih =>
    intro H
    have Ht := H t (List.mem_cons_self t ts)
    have Hts := ih fun u hu => H u (List.mem_cons_of_mem t hu)
    simp only [iterLeafsList, List.filter_append, List.length_append,
      List.mem_append]
    constructor
    · have h1 : (List.filter (fun x => decide (nanFraction ctx x < a))
          (iterLeafs ctx minpx maxpx e2 t)).length
          ≤ (List.filter (fun x => decide (nanFraction ctx x < a))
          (iterLeafs ctx minpx maxpx e1 t)).length := Ht.1
      omega
    · intro x hx
      rcases hx with hx | hx
      · obtain ⟨v, hv1, hv2⟩ := Ht.2 x hx
        exact ⟨v, Or.inl hv1, hv2⟩
      · obtain ⟨v, hv1, hv2⟩ := Hts.2 x hx
        exact ⟨v, Or.inr hv1, hv2⟩

/-- Walk monotonicity in the threshold: raising `epsilon` can only merge
reported leaves upward — the filtered leaf list gets no longer, and every
leaf reported at the larger threshold dominates (in side length) some
leaf reported at the smaller one. -/
theorem walkF_mono (ctx : Ctx) (minpx maxpx : Nat) (e1 e2 a : ℚ)
    (h12 : e1 ≤ e2) (ha : a ≤ 1) :
    ∀ {t : QTree}, WF ctx t →
      (walkF ctx minpx maxpx e2 a t).length ≤ (walkF ctx minpx maxpx e1 a t).length ∧
      ∀ u ∈ walkF ctx minpx maxpx e2 a t,
        ∃ v ∈ walkF ctx minpx maxpx e1 a t, v.len ≤ u.len := by
  intro t hwf
  induction hwf with
  | @leaf llr llc len hv =>
    exact ⟨le_rfl, fun u hu => ⟨u, hu, le_rfl⟩⟩
  | @node llr llc len ch hv hne hlen hsz hnan hch ih =>
    simp only [walkF]
    cases ch with
    | nil => exact absurd rfl hne
    | cons c cs =>
      rw [iterLeafs_node, iterLeafs_node]
      by_cases hc2 : ctx.corr llr llc len < e2 ∧ ¬len > maxpx
      · rw [if_pos hc2]
        by_cases hc1 : ctx.corr llr llc len < e1 ∧ ¬len > maxpx
        · rw [if_pos hc1]
          exact ⟨le_rfl, fun u hu => ⟨u, hu, le_rfl⟩⟩
        · rw [if_neg hc1]
          by_cases hcmin : c.len < minpx
          · rw [if_pos hcmin]
            exact ⟨le_rfl, fun u hu => ⟨u, hu, le_rfl⟩⟩
          · rw [if_neg hcmin]
            by_cases hfr : nanFraction ctx ⟨llr, llc, len⟩ < a
            · have hszpos : (0 : ℚ) < (tileSize ctx llr llc len : ℚ) := by
                exact_mod_cast Nat.lt_of_le_of_lt (Nat.zero_le _) hv
              have hroot : (tileNanCount ctx llr llc len : ℚ)
                  < a * (tileSize ctx llr llc len : ℚ) := by
                rw [← div_lt_iff₀ hszpos]
                exact hfr
              have hcov := walkF_cover ctx minpx maxpx e1 a ha
                (WF.node hv hne hlen hsz hnan hch) (by
                  simpa only [QTree.llr, QTree.llc, QTree.len] using hroot)
              have hF1 : walkF ctx minpx maxpx e1 a (.mk llr llc len (some (c :: cs)))
                  = (iterLeafsList ctx minpx maxpx e1 (c :: cs)).filter
                      (fun x => nanFraction ctx x < a) := by
                simp only [walkF]
                rw [iterLeafs_node, if_neg hc1, if_neg hcmin]
              rw [hF1] at hcov
              obtain ⟨v, hv1, hv2⟩ := hcov
              simp only [QTree.len] at hv2
              constructor
              · have hpos : 0 < ((iterLeafsList ctx minpx maxpx e1 (c :: cs)).filter
                    (fun x => nanFraction ctx x < a)).length :=
                  List.length_pos.mpr (List.ne_nil_of_mem hv1)
                have hlen1 : (List.filter (fun x => decide (nanFraction ctx x < a))
                    [(⟨llr, llc, len⟩ : Tile)]).length ≤ 1 := by
                  simp [List.filter]
                  split <;> simp
                omega
              · intro u hu
                rw [List.mem_filter, List.mem_singleton] at hu
                obtain ⟨hu1, _⟩ := hu
                subst hu1
                exact ⟨v, hv1, by simpa using hv2⟩
            · constructor
              · simp [List.filter, hfr]
              · intro u hu
                rw [List.mem_filter, List.mem_singleton] at hu
                exact absurd (hu.1 ▸ hu.2) (by simpa using hfr)
      · rw [if_neg hc2]
        have hc1 : ¬(ctx.corr llr llc len < e1 ∧ ¬len > maxpx) := fun h =>
          hc2 ⟨lt_of_lt_of_le h.1 h12, h.2⟩
        rw [if_neg hc1]
        by_cases hcmin : c.len < minpx
        · rw [if_pos hcmin, if_pos hcmin]
          exact ⟨le_rfl, fun u hu => ⟨u, hu, le_rfl⟩⟩
        · rw [if_neg hcmin, if_neg hcmin]
          exact forest_mono_aux ctx minpx maxpx e1 e2 a (c :: cs) fun u hu => ih u hu

theorem foldl_min_spec :
    ∀ (l : List Nat) (a : Nat),
      (l.foldl min a = a ∨ l.foldl min a ∈ l) ∧ l.foldl min a ≤ a ∧
        ∀ x ∈ l, l.foldl min a ≤ x := by
  intro l
  induction l with
  | nil => simp
  | cons b t ih =>
    intro a
    have h := ih (min a b)
    simp only [List.foldl_cons]
    refine ⟨?_, ?_, ?_⟩
    · rcases h.1 with h1 | h1
      · rw [h1]
        rcases Nat.le_total a b with hab | hab
        · exact Or.inl (Nat.min_eq_left hab)
        · exact Or.inr (by rw [Nat.min_eq_right hab]; exact List.mem_cons_self b t)
      · exact Or.inr (List.mem_cons_of_mem b h1)
    · exact le_trans h.2.1 (Nat.min_le_left a b)
    · intro x hx
      rcases List.mem_cons.mp hx with rfl | hx2
      · exact le_trans h.2.1 (Nat.min_le_right a x)
      · exact h.2.2 x hx2

theorem min?_spec (l : List Nat) :
    ∀ m ∈ l.min?, m ∈ l ∧ ∀ x ∈ l, m ≤ x := by
  cases l with
  | nil => simp [List.min?]
  | cons a t =>
    intro m hm
    simp only [List.min?, Option.mem_def, Option.some.injEq] at hm
    subst hm
    have h := foldl_min_spec t a
    refine ⟨?_, ?_⟩
    · rcases h.1 with h1 | h1
      · rw [h1]; exact List.mem_cons_self a t
      · exact List.mem_cons_of_mem a h1
    · intro x hx
      rcases List.mem_cons.mp hx with rfl | hx2
      · exact h.2.1
      · exact h.2.2 x hx2

theorem min?_isSome_of_ne_nil (l : List Nat) (h : l ≠ []) :
    ∃ m, l.min? = some m := by
  cases l with
  | nil => exact absurd rfl h
  | cons a t => exact ⟨t.foldl min a, rfl⟩

/-- If every element of `l2` dominates some element of `l1` under `f`,
the minimum of `f` over `l1` is at most the minimum over `l2`. -/
theorem min?_dominated (f : Tile → Nat) (l1 l2 : List Tile)
    (hdom : ∀ u ∈ l2, ∃ v ∈ l1, f v ≤ f u) :
    ∀ m2 ∈ (l2.map f).min?, ∃ m1 ∈ (l1.map f).min?, m1 ≤ m2 := by
  intro m2 hm2
  have hspec2 := min?_spec (l2.map f) m2 hm2
  obtain ⟨u, hu, hfu⟩ := List.mem_map.mp hspec2.1
  obtain ⟨v, hv, hle⟩ := hdom u hu
  have hne : l1.map f ≠ [] :=
    List.ne_nil_of_mem (List.mem_map_of_mem f hv)
  obtain ⟨m1, hm1⟩ := min?_isSome_of_ne_nil (l1.map f) hne
  have hspec1 := min?_spec (l1.map f) m1 hm1
  refine ⟨m1, hm1, ?_⟩
  have := hspec1.2 (f v) (List.mem_map_of_mem f hv)
  omega

mutual
theorem iterLeafs_sub (ctx : Ctx) (minpx maxpx : Nat) (e : ℚ) :
    ∀ t : QTree, ∀ x ∈ iterLeafs ctx minpx maxpx e t, x ∈ iterChildren t
  | .mk llr llc len none => by
    intro x hx
    rw [iterLeafs_leaf] at hx
    simpa [iterChildren] using hx
  | .mk llr llc len (some []) => by
    intro x hx
    have hx2 : x ∈ (if ctx.corr llr llc len < e ∧ ¬len > maxpx
        then [(⟨llr, llc, len⟩ : Tile)] else []) := hx
    simp only [iterChildren]
    split at hx2
    · rw [List.mem_singleton] at hx2
      rw [hx2]
      exact List.mem_cons_self _ _
    · exact absurd hx2 (List.not_mem_nil x)
  | .mk llr llc len (some (c :: cs)) => by
    intro x hx
    rw [iterLeafs_node] at hx
    simp only [iterChildren]
    split at hx
    · rw [List.mem_singleton] at hx
      rw [hx]
      exact List.mem_cons_self _ _
    · split at hx
      · rw [List.mem_singleton] at hx
        rw [hx]
        exact List.mem_cons_self _ _
      · exact List.mem_cons_of_mem _
          (iterLeafsList_sub ctx minpx maxpx e (c :: cs) x hx)

theorem iterLeafsList_sub (ctx : Ctx) (minpx maxpx : Nat) (e : ℚ) :
    ∀ ch : List QTree, ∀ x ∈ iterLeafsList ctx minpx maxpx e ch,
      x ∈ iterChildrenList ch
  | [] => by
    intro x hx
    exact absurd hx (List.not_mem_nil x)
  | t :: ts => by
    intro x hx
    have hx2 : x ∈ iterLeafs ctx minpx maxpx e t
        ++ iterLeafsList ctx minpx maxpx e ts := hx
    show x ∈ iterChildren t ++ iterChildrenList ts
    rw [List.mem_append] at hx2 ⊢
    rcases hx2 with h | h
    · exact Or.inl (iterLeafs_sub ctx minpx maxpx e t x h)
    · exact Or.inr (iterLeafsList_sub ctx minpx maxpx e ts x h)
end

/-! ## Claim theorems -/

/-- C1 counterexample: the claim asserts that `createTree` splits a node
exactly when `correction_metric > epsilon_min` AND `side ≥ 64 px`, and
in particular leaves a node with metric ≤ `epsilon_min` childless even at
side ≥ 64 px.  On the uniform 33 × 33 scene `ctx33` (metric ≡ 0,
`epsilon_min = 0`), the single base node built by `_base_nodes` has side
64 and metric not exceeding `epsilon_min`, yet `createTree` splits it:
the source condition is an OR, not an AND. -/
theorem createTree_splits_uniform_base :
    ((quadtreeBases ctx33).map fun t => (t.children.isSome, t.len))
        = [(true, 64)] ∧
      ¬ctx33.corr 0 0 64 > ctx33.epsMin := by
  decide

/-- C1 (amended): `createTree` splits a node exactly when
`(correction_metric(node) > epsilon_min OR node.side_length ≥ 64 px)`
AND `node.side_length ≥ 16 px`; in particular it never splits a node
with side length < 16 px, and a node whose metric does not exceed
`epsilon_min` is still split whenever its side length is at least 64 px. -/
theorem createTree_split_iff (ctx : Ctx) (llr llc len : Nat) :
    (buildTree ctx llr llc len).children.isSome
      ↔ (ctx.corr llr llc len > ctx.epsMin ∨ 64 ≤ len) ∧ ¬len < 16 := by
  rw [buildTree_eq]
  by_cases h : (ctx.corr llr llc len > ctx.epsMin ∨ 64 ≤ len) ∧ ¬len < 16
  · rw [if_pos h]
    simp only [QTree.children, Option.isSome_some]
    exact iff_of_true trivial h
  · rw [if_neg h]
    simp only [QTree.children, Option.isSome_none]
    exact iff_of_false (by simp) h

/-- Witness for C1 (amended): the uniform 33 × 33 scene's base node of
side 64 is split although its metric does not exceed `epsilon_min`. -/
theorem createTree_split_iff_example :
    (buildTree ctx33 0 0 64).children.isSome :=
  (createTree_split_iff ctx33 0 0 64).mpr ⟨Or.inr (by norm_num), by norm_num⟩

/-- C2: for a fixed built tree (a forest of `createTree` results on
power-of-two base nodes each holding a valid sample), fixed correction
metric, NaN allowance and tile-size limits, and thresholds
`epsilon_min ≤ e1 < e2`: the leaf set reported at `e2` has no more
leaves than the one reported at `e1`, its minimum reported side length
is no smaller, and the leaf set at `e1` has no fewer leaves than the one
at `e2`. -/
theorem leafs_epsilon_monotone (ctx : Ctx) (minpx maxpx : Nat)
    (bases : List QTree)
    (hb : ∀ b ∈ bases, ∃ llr llc k, b = buildTree ctx llr llc (2 ^ k) ∧
        tileNanCount ctx llr llc (2 ^ k) < tileSize ctx llr llc (2 ^ k))
    (e1 e2 a : ℚ) (h12 : e1 < e2) (hemin : ctx.epsMin ≤ e1) (ha : a ≤ 1) :
    (leafs ctx minpx maxpx bases e2 a).length
        ≤ (leafs ctx minpx maxpx bases e1 a).length ∧
      (∀ m2 ∈ ((leafs ctx minpx maxpx bases e2 a).map Tile.len).min?,
        ∃ m1 ∈ ((leafs ctx minpx maxpx bases e1 a).map Tile.len).min?,
          m1 ≤ m2) ∧
      (leafs ctx minpx maxpx bases e1 a).length
        ≥ (leafs ctx minpx maxpx bases e2 a).length := by
  have hwfs : ∀ b ∈ bases, WF ctx b := by
    intro b hbm
    obtain ⟨llr, llc, k, rfl, hv⟩ := hb b hbm
    exact wf_buildTree ctx (2 ^ k) llr llc ⟨k, rfl⟩ hv
  have hmain := forest_mono_aux ctx minpx maxpx e1 e2 a bases fun u hu =>
    walkF_mono ctx minpx maxpx e1 e2 a (le_of_lt h12) ha (hwfs u hu)
  simp only [leafs]
  exact ⟨hmain.1, min?_dominated Tile.len _ _ hmain.2, hmain.1⟩

/-- Witness for C2 on the concrete 2 × 2 scene `ctx2`. -/
theorem leafs_epsilon_monotone_example :
    (leafs ctx2 0 128 [buildTree ctx2 0 0 2] 1 1).length
        ≤ (leafs ctx2 0 128 [buildTree ctx2 0 0 2] 0 1).length ∧
      (leafs ctx2 0 128 [buildTree ctx2 0 0 2] 0 1).length
        ≥ (leafs ctx2 0 128 [buildTree ctx2 0 0 2] 1 1).length := by
  have h := leafs_epsilon_monotone ctx2 0 128 [buildTree ctx2 0 0 2]
    (by
      intro b hbm
      rw [List.mem_singleton] at hbm
      subst hbm
      exact ⟨0, 0, 1, rfl, by decide⟩)
    0 1 1 (by norm_num) (by decide) (by norm_num)
  exact ⟨h.1, h.2.2⟩

theorem subtrees_leaf (llr llc len : Nat) :
    subtrees (.mk llr llc len none) = [.mk llr llc len none] :=
  rfl

theorem subtrees_node (llr llc len : Nat) (ch : List QTree) :
    subtrees (.mk llr llc len (some ch))
      = .mk llr llc len (some ch) :: subtreesList ch :=
  rfl

theorem self_mem_subtrees : ∀ t : QTree, t ∈ subtrees t := by
  intro t
  cases t with
  | mk llr llc len o =>
    cases o with
    | none => rw [subtrees_leaf]; exact List.mem_cons_self _ _
    | some ch => rw [subtrees_node]; exact List.mem_cons_self _ _

theorem subtreesList_elim :
    ∀ ch : List QTree, ∀ x ∈ subtreesList ch, ∃ u ∈ ch, x ∈ subtrees u := by
  intro ch
  induction ch with
  | nil => intro x hx; exact absurd hx (List.not_mem_nil x)
  | cons t ts ih =>
    intro x hx
    have hx2 : x ∈ subtrees t ++ subtreesList ts := hx
    rcases List.mem_append.mp hx2 with h | h
    · exact ⟨t, List.mem_cons_self t ts, h⟩
    · obtain ⟨u, hu, hxu⟩ := ih x h
      exact ⟨u, List.mem_cons_of_mem t hu, hxu⟩

/-- Every subtree of a tree built by `createTree` from a power-of-two
node is itself built by `createTree` from a power-of-two node. -/
theorem subtree_of_buildTree (ctx : Ctx) :
    ∀ k llr llc, ∀ s ∈ subtrees (buildTree ctx llr llc (2 ^ k)),
      ∃ j r c, j ≤ k ∧ s = buildTree ctx r c (2 ^ j) := by
  intro k
  induction k with
  | zero =>
    intro llr llc s hs
    have hleaf : buildTree ctx llr llc (2 ^ 0) = .mk llr llc (2 ^ 0) none := by
      rw [buildTree_eq, if_neg]
      intro hcond
      exact hcond.2 (by norm_num)
    rw [hleaf, subtrees_leaf, List.mem_singleton] at hs
    exact ⟨0, llr, llc, le_refl 0, by rw [hs, hleaf]⟩
  | succ k ih =>
    intro llr llc s hs
    by_cases hc : (ctx.corr llr llc (2 ^ (k + 1)) > ctx.epsMin ∨ 64 ≤ 2 ^ (k + 1))
        ∧ ¬2 ^ (k + 1) < 16
    · rw [buildTree_eq, if_pos hc, subtrees_node] at hs
      rcases List.mem_cons.mp hs with rfl | hs2
      · exact ⟨k + 1, llr, llc, le_refl _, by rw [buildTree_eq, if_pos hc]⟩
      · obtain ⟨u, hu, hsu⟩ := subtreesList_elim _ s hs2
        obtain ⟨p, _, rfl⟩ := List.mem_map.mp hu
        have hhalf : 2 ^ (k + 1) / 2 = 2 ^ k := by
          rw [pow_succ]
          omega
        rw [hhalf] at hsu
        obtain ⟨j, r, c, hj, hse⟩ := ih p.1 p.2 s hsu
        exact ⟨j, r, c, by omega, hse⟩
    · rw [buildTree_eq, if_neg hc, subtrees_leaf, List.mem_singleton] at hs
      exact ⟨k + 1, llr, llc, le_refl _, by rw [hs, buildTree_eq, if_neg hc]⟩

/-- C5: for every node split by `createTree` (in a tree grown from a
power-of-two base node): every constructed child has side length exactly
half the parent's; the four candidate quadrants exactly partition the
parent's footprint (each raster index lies in the parent rectangle iff it
lies in exactly one quadrant rectangle); the children are precisely the
kept quadrants, in order, at half the side; and a candidate quadrant is
kept iff it is **not** the case that its footprint holds no raster sample
or all of its displacement values are NaN. -/
theorem createTree_split_geometry (ctx : Ctx) (k llr0 llc0 : Nat) :
    ∀ s ∈ subtrees (buildTree ctx llr0 llc0 (2 ^ k)),
      ∀ r c len ch, s = .mk r c len (some ch) →
        (∀ t ∈ ch, t.len * 2 = len) ∧
        (∀ r2 c2 : Nat, (if inTile r c len r2 c2 then (1 : Nat) else 0) =
          (if inTile r c (len / 2) r2 c2 then 1 else 0) +
          (if inTile r (c + len / 2) (len / 2) r2 c2 then 1 else 0) +
          (if inTile (r + len / 2) c (len / 2) r2 c2 then 1 else 0) +
          (if inTile (r + len / 2) (c + len / 2) (len / 2) r2 c2 then 1 else 0)) ∧
        (ch.map QTree.tile = (splitChildren ctx r c len).map fun p =>
          (⟨p.1, p.2, len / 2⟩ : Tile)) ∧
        (∀ p ∈ splitQuadrants r c len, p ∈ splitChildren ctx r c len ↔
          ¬(tileSize ctx p.1 p.2 (len / 2) = 0 ∨
            tileNanCount ctx p.1 p.2 (len / 2) = tileSize ctx p.1 p.2 (len / 2))) := by
  intro s hs r c len ch hse
  obtain ⟨j, r', c', _, rfl⟩ := subtree_of_buildTree ctx k llr0 llc0 s hs
  rw [buildTree_eq] at hse
  by_cases hc : (ctx.corr r' c' (2 ^ j) > ctx.epsMin ∨ 64 ≤ 2 ^ j) ∧ ¬2 ^ j < 16
  · rw [if_pos hc] at hse
    rw [QTree.mk.injEq, Option.some.injEq] at hse
    obtain ⟨rfl, rfl, rfl, rfl⟩ := hse
    have h16 : 16 ≤ 2 ^ j := by
      have := hc.2
      omega
    obtain ⟨j', rfl⟩ : ∃ j', j = j' + 1 := by
      refine ⟨j - 1, ?_⟩
      rcases Nat.eq_zero_or_pos j with h0 | h1
      · subst h0; norm_num at h16
      · omega
    have hl2 : 2 ^ (j' + 1) = 2 ^ j' * 2 := by rw [pow_succ]
    have heven : 2 * (2 ^ (j' + 1) / 2) = 2 ^ (j' + 1) := by omega
    refine ⟨?_, ?_, ?_, ?_⟩
    · intro t ht
      rw [List.mem_map] at ht
      obtain ⟨p, _, rfl⟩ := ht
      rw [buildTree_len]
      omega
    · intro r2 c2
      have := inTile_quad r' c' (2 ^ (j' + 1) / 2) r2 c2
      rwa [heven] at this
    · rw [List.map_map]
      apply List.map_congr_left
      intro p _
      exact buildTree_tile ctx p.1 p.2 _
    · intro p hp
      rw [mem_splitChildren ctx r' c' (2 ^ (j' + 1)) p]
      exact ⟨fun h => h.2, fun h => ⟨hp, h⟩⟩
  · rw [if_neg hc] at hse
    exact absurd hse (by simp)

/-- Witness for C5 at the root split of the 16 × 16 scene `ctx16`:
children `(0,0,8), (0,8,8), (8,0,8), (8,8,8)` all have half the side,
and the quadrant indicators partition the parent at the sample cell
`(3, 9)`. -/
theorem createTree_split_geometry_example :
    (∀ t ∈ [QTree.mk 0 0 8 none, QTree.mk 0 8 8 none,
        QTree.mk 8 0 8 none, QTree.mk 8 8 8 none], t.len * 2 = 16) ∧
      ((if inTile 0 0 16 3 9 then (1 : Nat) else 0) =
        (if inTile 0 0 8 3 9 then 1 else 0) +
        (if inTile 0 8 8 3 9 then 1 else 0) +
        (if inTile 8 0 8 3 9 then 1 else 0) +
        (if inTile 8 8 8 3 9 then 1 else 0)) := by
  have hseq : buildTree ctx16 0 0 (2 ^ 4)
      = QTree.mk 0 0 16 (some [QTree.mk 0 0 8 none, QTree.mk 0 8 8 none,
          QTree.mk 8 0 8 none, QTree.mk 8 8 8 none]) := by
    rfl
  have h := createTree_split_geometry ctx16 4 0 0
    (buildTree ctx16 0 0 (2 ^ 4)) (self_mem_subtrees _)
    0 0 16 [QTree.mk 0 0 8 none, QTree.mk 0 8 8 none,
      QTree.mk 8 0 8 none, QTree.mk 8 8 8 none] hseq
  exact ⟨h.1, h.2.1 3 9⟩

/-- C6: no tile reported by `Quadtree.leafs` has NaN fraction at least
`nan_allowed`, and a walk leaf whose NaN fraction exceeds the allowance
is excluded from the reported leaf set while remaining a node of the
tree (the filter does not alter the tree structure). -/
theorem leafs_nan_allowance (ctx : Ctx) (minpx maxpx : Nat)
    (bases : List QTree) (e a : ℚ) :
    (∀ l ∈ leafs ctx minpx maxpx bases e a, ¬a ≤ nanFraction ctx l) ∧
      ∀ u ∈ iterLeafsList ctx minpx maxpx e bases, a < nanFraction ctx u →
        u ∉ leafs ctx minpx maxpx bases e a ∧ u ∈ quadtreeNodes bases := by
  constructor
  · intro l hl
    have h2 := (List.mem_filter.mp hl).2
    simp only [decide_eq_true_eq] at h2
    exact not_le.mpr h2
  · intro u hu hgt
    refine ⟨?_, iterLeafsList_sub ctx minpx maxpx e bases u hu⟩
    intro hmem
    have h2 := (List.mem_filter.mp hmem).2
    simp only [decide_eq_true_eq] at h2
    exact absurd h2 (not_lt.mpr (le_of_lt hgt))

/-- Witness for C6: on `ctx2` with allowance `1/8`, the walk leaf
`(0, 0, 2)` (NaN fraction `1/4`) is dropped from the reported leaf set
but is still a node of the tree. -/
theorem leafs_nan_allowance_example :
    (⟨0, 0, 2⟩ : Tile) ∉ leafs ctx2 0 128 [buildTree ctx2 0 0 2] 1 (1 / 8) ∧
      (⟨0, 0, 2⟩ : Tile) ∈ quadtreeNodes [buildTree ctx2 0 0 2] :=
  (leafs_nan_allowance ctx2 0 128 [buildTree ctx2 0 0 2] 1 (1 / 8)).2
    ⟨0, 0, 2⟩ (by decide)
    (by
      have h1 : tileNanCount ctx2 0 0 2 = 1 := by decide
      have h2 : tileSize ctx2 0 0 2 = 4 := by decide
      simp only [nanFraction]
      rw [h1, h2]
      norm_num)

/-- C7 counterexample: the claim asserts every attempt to set `epsilon`
below `epsilon_min` is reported to the caller.  In the reachable state
`exState` (current `epsilon` is 1, `epsilon_min` is 2), setting
`epsilon` to 1 — a value below `epsilon_min` — is swallowed by the
setter's early-equality return: it is a no-op, but no warning is
emitted (`false`). -/
theorem setEpsilon_silent_rejection :
    setEpsilon exState 1 = (exState, false) ∧ (1 : ℚ) < exState.epsilonMin := by
  constructor
  · rfl
  · decide

/-- C7 (amended): setting `epsilon` below `epsilon_min`, setting
`nan_allowed` outside `(0, 1]`, or setting an inconsistent
`tile_size_min` / `tile_size_max` is a no-op preserving the entire prior
state, and no exception is raised (the setters are total); the rejection
is reported by a warning — for `epsilon`, except when the requested
value equals the current `epsilon`, in which case the setter returns
silently before the bound check. -/
theorem config_setters_reject (s : QuadtreeState) (v : ℚ) :
    (v < s.epsilonMin →
      (setEpsilon s v).1 = s ∧
        ((setEpsilon s v).2 = true ↔ s.config.epsilon ≠ v)) ∧
      (v > 1 ∨ v ≤ 0 → setNanAllowed s v = (s, true)) ∧
      (v > s.config.tile_size_max → setTileSizeMin s v = (s, true)) ∧
      (v < s.config.tile_size_min → setTileSizeMax s v = (s, true)) := by
  refine ⟨?_, ?_, ?_, ?_⟩
  · intro hv
    unfold setEpsilon
    by_cases he : s.config.epsilon = v
    · rw [if_pos he]
      exact ⟨rfl, by simp [he]⟩
    · rw [if_neg he, if_pos hv]
      exact ⟨rfl, by simp [he]⟩
  · intro hv
    unfold setNanAllowed
    rw [if_pos hv]
  · intro hv
    unfold setTileSizeMin
    rw [if_pos hv]
  · intro hv
    unfold setTileSizeMax
    rw [if_pos hv]

/-- Witness for C7 (amended) on the state `exState`. -/
theorem config_setters_reject_example :
    (setEpsilon exState (1 / 2)).1 = exState ∧
      (setEpsilon exState (1 / 2)).2 = true ∧
      setNanAllowed exState 3 = (exState, true) ∧
      setTileSizeMin exState 30000 = (exState, true) ∧
      setTileSizeMax exState 100 = (exState, true) := by
  have heps := (config_setters_reject exState (1 / 2)).1
    (by norm_num [exState])
  have hnan := (config_setters_reject exState 3).2.1 (Or.inl (by norm_num))
  have hmin := (config_setters_reject exState 30000).2.2.1
    (by norm_num [exState])
  have hmax := (config_setters_reject exState 100).2.2.2
    (by norm_num [exState])
  refine ⟨heps.1, heps.2.mpr (by norm_num [exState]), hnan, hmin, hmax⟩

/-- C3: for every leaf set (every leaf count `n` and covariance state
over it, with the leaf-pair distances symmetric): the covariance matrix
is symmetric; every diagonal entry equals the global variance; and the
global variance is the maximum of the empirical covariance curve — it
depends only on the curve, not on the fitted coefficients nor on
`config.variance`. -/
theorem covariance_matrix_symm_diag (n : Nat) (m : CovModel n)
    (hsym : ∀ i j, m.dist i j = m.dist j i) :
    (covariance_matrix m).transpose = covariance_matrix m ∧
      (∀ i, covariance_matrix m i i = variance m) ∧
      ∀ m2 : CovModel n, m2.covCurve = m.covCurve → variance m2 = variance m := by
  refine ⟨?_, ?_, ?_⟩
  · ext i j
    simp only [Matrix.transpose_apply, covariance_matrix, Matrix.of_apply]
    by_cases hij : i = j
    · simp [hij]
    · rw [if_neg hij, if_neg (fun h => hij h.symm), hsym j i]
  · intro i
    simp [covariance_matrix]
  · intro m2 h2
    unfold variance
    rw [h2]

/-- Witness for C3 on the concrete two-leaf model `mC3`. -/
theorem covariance_matrix_symm_diag_example :
    (covariance_matrix mC3).transpose = covariance_matrix mC3 ∧
      covariance_matrix mC3 0 0 = variance mC3 ∧
      variance mC3' = variance mC3 := by
  have h := covariance_matrix_symm_diag 2 mC3 (by decide)
  exact ⟨h.1, h.2.1 0, h.2.2 mC3' rfl⟩

/-- C4: whenever the covariance matrix of the current leaf set is
invertible, the weight matrix is its matrix inverse:
`covariance_matrix * weight_matrix = 1`. -/
theorem weight_matrix_inverse (n : Nat) (m : CovModel n)
    (h : (covariance_matrix m).det ≠ 0) :
    covariance_matrix m * weight_matrix m = 1 := by
  unfold weight_matrix matInverse
  rw [Matrix.mul_smul, Matrix.mul_adjugate, smul_smul, inv_mul_cancel₀ h,
    one_smul]

/-- Witness for C4 on the concrete one-leaf model `mC4`. -/
theorem weight_matrix_inverse_example :
    covariance_matrix mC4 * weight_matrix mC4 = 1 :=
  weight_matrix_inverse 1 mC4 (by
    rw [Matrix.det_fin_one]
    simp only [covariance_matrix, variance, arrayMax, mC4, Matrix.of_apply,
      if_pos rfl, List.foldl_cons, List.foldl_nil]
    have hm : ((5 : ℚ) ⊔ 2) = 5 := max_eq_left (by norm_num)
    rw [hm]
    norm_num)

/-- C8: `getCovariance` (on leaf objects or id strings) raises the
named-key error carrying the offending id whenever either argument is
absent from the current leaf-index mapping (the first argument is looked
up first), and for two known leaves it returns the covariance-matrix
entry at their mapped indices; absence from the mapping is exactly
non-membership of the id list. -/
theorem getCovariance_spec (n : Nat) (m : CovModel n) (ids : List String) :
    (∀ l1 l2 : LeafRef, leafIdx ids l1.resolve = none →
        getCovariance m ids l1 l2 = .error l1.resolve) ∧
      (∀ l1 l2 : LeafRef, ∀ i, leafIdx ids l1.resolve = some i →
        leafIdx ids l2.resolve = none →
        getCovariance m ids l1 l2 = .error l2.resolve) ∧
      (∀ l1 l2 : LeafRef, ∀ i j, leafIdx ids l1.resolve = some i →
        leafIdx ids l2.resolve = some j →
        getCovariance m ids l1 l2 = .ok (covEntry m i j)) ∧
      ∀ l : String, leafIdx ids l = none ↔ l ∉ ids := by
  refine ⟨?_, ?_, ?_, ?_⟩
  · intro l1 l2 h1
    unfold getCovariance getMapping
    rw [h1]
    rfl
  · intro l1 l2 i h1 h2
    unfold getCovariance getMapping
    rw [h1, h2]
    rfl
  · intro l1 l2 i j h1 h2
    unfold getCovariance getMapping
    rw [h1, h2]
    rfl
  · intro l
    unfold leafIdx
    rw [List.findIdx?_eq_none_iff]
    constructor
    · intro h hmem
      have := h l hmem
      simp at this
    · intro h x hx
      rw [beq_eq_false_iff_ne]
      rintro rfl
      exact h hx

/-- Witness for C8 on the one-leaf mapping `ids1`. -/
theorem getCovariance_spec_example :
    getCovariance mC3 ids1 (.byId "node_1-1_1") (.byTile ⟨0, 0, 2⟩)
        = .error "node_1-1_1" ∧
      getCovariance mC3 ids1 (.byTile ⟨0, 0, 2⟩) (.byId "nope")
        = .error "nope" ∧
      getCovariance mC3 ids1 (.byTile ⟨0, 0, 2⟩) (.byTile ⟨0, 0, 2⟩)
        = .ok (covEntry mC3 0 0) := by
  have h := getCovariance_spec 2 mC3 ids1
  exact ⟨h.1 _ _ (by decide), h.2.1 _ _ 0 (by decide) (by decide),
    h.2.2.1 _ _ 0 0 (by decide) (by decide)⟩

/-- C9 (code evaluation at the failing input): with `dE = 1`, `dN = 2`
and a noise patch of 2 rows and 3 columns — so the north frequency axis
is the longer one — the distance axis of `covariance_func` is
`[1] = [1 * dE]`, not `[2] = [1 * dN]` as the claim requires: both
branches of the source conditional read `frame.dE`. -/
theorem covFuncDistances_always_dE :
    covFuncDistances 1 2 2 3 1 = [1] ∧ 2 < 3 ∧ (1 : ℚ) ≠ 2 ∧
      covFuncDistances 1 2 2 3 1 ≠ [2] := by
  have h1 : covFuncDistances 1 2 2 3 1 = [1] := by
    unfold covFuncDistances
    norm_num [List.range_succ]
  refine ⟨h1, by norm_num, by norm_num, ?_⟩
  rw [h1]
  intro h
  rw [List.cons.injEq] at h
  exact absurd h.1 (by norm_num)

/-- C10: `Covariance.__init__` aborts with an `AttributeError` on its
very first attribute read of the quadtree (before any matrix can be
computed): it reads `quadtree._scene` and later subscribes to
`quadtree.treeUpdate`, but `Quadtree` defines `scene`, `evChanged` and
`evConfigChanged` and defines no attribute `_scene` or `treeUpdate`. -/
theorem covariance_init_attribute_error :
    covarianceInitAccess quadtreeAttrs = .error "_scene" ∧
      "_scene" ∉ quadtreeAttrs ∧ "treeUpdate" ∉ quadtreeAttrs ∧
      "scene" ∈ quadtreeAttrs ∧ "evChanged" ∈ quadtreeAttrs ∧
      "evConfigChanged" ∈ quadtreeAttrs :=
  ⟨rfl, by decide, by decide, by decide, by decide, by decide⟩

end Kite
